import Mathlib

set_option maxRecDepth 4000

/-!
Verification development for the hatnote-cleanup bot (`src/bot.py`).

The bot parses article wikitext into a template tree, finds templates whose
trimmed name belongs to a known hatnote-name set, extracts the wikilink
targets of their parameters, resolves the targets' existence through a
batched API query with a run-scoped cache, and removes templates with a
missing target.

The wikitext parsing layer (`mwparserfromhell` in the source) is modelled
here at the character level as the pluggable capability described in the
spec (section 9): parse text into a tree of templates with name and
parameters, enumerate wikilinks within a text fragment, serialize the tree
back to text.  The parser below is lossless: serialization of the parse of
any string returns that string, which is proved (`renderChars_parseAux`).
The filtering, batching, caching, environment and effect logic is
translated directly from `bot.py`.
-/

namespace Hatnote

/-- Characters stripped by Python's `str.strip()` with no argument. -/
def pyIsSpace (c : Char) : Bool :=
  c = ' ' || c = '\t' || c = '\n' || c = '\r' || c = '\x0b' || c = '\x0c'

/-- Model of Python's `str.strip()` (used as `template.name.strip()` at
`bot.py:239,257` and `value.strip()` at `bot.py:17-20`). -/
def pyStrip (s : String) : String :=
  String.mk (((s.data.dropWhile pyIsSpace).reverse.dropWhile pyIsSpace).reverse)

/-- A template reference: a name and the ordered raw parameter blobs, as in
the spec's data model (name plus ordered list of unparsed parameters). -/
structure Template where
  name : String
  params : List String
deriving DecidableEq

/-- A node of parsed wikitext: plain text or a template transclusion. -/
inductive Node where
  | text (s : String)
  | template (t : Template)
deriving DecidableEq

/-! ### Link-aware splitting of a template body

mwparserfromhell separates template parameters on `|` and the parameter
name from its value on the first `=`, except inside a closed wikilink
`[[...]]`.  An unclosed `[[` is ordinary text.  The splitters below are
single left-to-right passes (structural recursion, so they evaluate by
`decide`). -/

/-- Plain split on `|` with an accumulator holding the current chunk
reversed; used when a pending `[[` turns out to be unclosed at the end of
the body. -/
def plainSplit (cur : List Char) : List Char → List (List Char)
  | [] => [cur.reverse]
  | c :: cs => if c = '|' then cur.reverse :: plainSplit [] cs else plainSplit (c :: cur) cs

/-- Split a template body on top-level `|`, treating the inside of a closed
wikilink `[[...]]` as opaque.  `cur` is the current chunk (reversed); the
`Option` state holds the reversed characters read since an open `[[`. -/
def splitAux : List Char → Option (List Char) → List Char → List (List Char)
  | cur, none, [] => [cur.reverse]
  | cur, some lb, [] => plainSplit cur ('[' :: '[' :: lb.reverse)
  | cur, none, c :: cs =>
    if c = '|' then cur.reverse :: splitAux [] none cs
    else if c = '[' then
      match cs with
      | d :: cs2 =>
        if d = '[' then splitAux cur (some []) cs2 else splitAux (c :: cur) none (d :: cs2)
      | [] => [(c :: cur).reverse]
    else splitAux (c :: cur) none cs
  | cur, some lb, c :: cs =>
    if c = ']' then
      match cs with
      | d :: cs2 =>
        if d = ']' then splitAux (']' :: ']' :: (lb ++ '[' :: '[' :: cur)) none cs2
        else splitAux cur (some (c :: lb)) (d :: cs2)
      | [] => plainSplit cur ('[' :: '[' :: (c :: lb).reverse)
    else splitAux cur (some (c :: lb)) cs

/-- Split a template body into chunks separated by top-level `|`. -/
def splitParams (body : List Char) : List (List Char) :=
  splitAux [] none body

/-- Build a `Template` from the body between `{{` and `}}`: the first
chunk is the name, the rest are the raw parameters. -/
def mkTemplate (body : List Char) : Template :=
  match splitParams body with
  | [] => ⟨"", []⟩
  | n :: ps => ⟨String.mk n, ps.map String.mk⟩

/-! ### Parsing wikitext into nodes -/

/-- Prepend a character to the parse result, merging into a leading text
node so that maximal text runs form one node. -/
def consText (c : Char) : List Node → List Node
  | Node.text s :: ns => Node.text (String.mk (c :: s.data)) :: ns
  | ns => Node.text (String.mk [c]) :: ns

/-- One-pass wikitext parser.  In state `none` we are at the top level; in
state `some buf`, `buf` holds (reversed) the characters read since an open
`{{`.  A `{{` with no later `}}` is flushed back as plain text, which makes
the parser total and lossless. -/
def parseAux : Option (List Char) → List Char → List Node
  | none, [] => []
  | some buf, [] => [Node.text (String.mk ('\x7b' :: '\x7b' :: buf.reverse))]
  | none, c :: cs =>
    if c = '\x7b' then
      match cs with
      | d :: cs2 =>
        if d = '\x7b' then parseAux (some []) cs2 else consText c (parseAux none (d :: cs2))
      | [] => [Node.text (String.mk [c])]
    else consText c (parseAux none cs)
  | some buf, c :: cs =>
    if c = '\x7d' then
      match cs with
      | d :: cs2 =>
        if d = '\x7d' then Node.template (mkTemplate buf.reverse) :: parseAux none cs2
        else parseAux (some (c :: buf)) (d :: cs2)
      | [] => [Node.text (String.mk ('\x7b' :: '\x7b' :: (c :: buf).reverse))]
    else parseAux (some (c :: buf)) cs

/-- Parse a wikitext string into nodes (`mwparserfromhell.parse` at
`bot.py:232`). -/
def parseWikicode (s : String) : List Node :=
  parseAux none s.data

/-- Whether the two-character sequence `x` then `y` occurs adjacently in a
character run. -/
def containsPair (x y : Char) : List Char → Bool
  | [] => false
  | [_] => false
  | c :: d :: cs => (decide (c = x) && decide (d = y)) || containsPair x y (d :: cs)

/-- First occurrence of the adjacent pair `x`, `y` in a character run: the
characters strictly before it and the characters strictly after it.
`parseAux` in template state closes at exactly this position for the pair
of closing braces, which the lemma `parseAux_some_eq` makes precise. -/
def findPair (x y : Char) : List Char → Option (List Char × List Char)
  | [] => none
  | [_] => none
  | c :: d :: cs =>
    if c = x ∧ d = y then some ([], cs)
    else
      match findPair x y (d :: cs) with
      | some (body, rest) => some (c :: body, rest)
      | none => none

/-- Serialize the chunks of a template body, re-inserting the `|`
separators. -/
def joinChunks : List (List Char) → List Char
  | [] => []
  | [c] => c
  | c :: c2 :: cs => c ++ '|' :: joinChunks (c2 :: cs)

/-- Serialize a template back to its source form. -/
def renderTemplate (t : Template) : List Char :=
  '\x7b' :: '\x7b' :: (joinChunks (t.name.data :: t.params.map String.data) ++ ['\x7d', '\x7d'])

/-- Serialize one node. -/
def renderNode : Node → List Char
  | Node.text s => s.data
  | Node.template t => renderTemplate t

/-- Serialize a node list back to characters. -/
def renderChars : List Node → List Char
  | [] => []
  | n :: ns => renderNode n ++ renderChars ns

/-- Serialize parsed wikicode back to a string (`str(wikicode)` at
`bot.py:281`). -/
def renderWikicode (w : List Node) : String :=
  String.mk (renderChars w)

/-- Characters pending in a `splitAux` state: the part of the input read
after an open `[[` that has not yet been attributed to a chunk. -/
def pendLink : Option (List Char) → List Char
  | none => []
  | some lb => '[' :: '[' :: lb.reverse

/-- Characters pending in a `parseAux` state: the part of the input read
after an open `{{` that has not yet been attributed to a node. -/
def pendText : Option (List Char) → List Char
  | none => []
  | some buf => '\x7b' :: '\x7b' :: buf.reverse

/-! ### Parameter values and wikilink targets

`process_pages` reads `param.value` (`bot.py:243,263`): mwparserfromhell
splits a parameter on its first `=` into name and value (the whole blob when
there is no top-level `=`), and a `=` inside a closed wikilink does not
split.  Wikilinks are then enumerated with `filter_wikilinks()` and the
target is `str(link.title).split("|")[0]` (`bot.py:245,265`). -/

/-- Find the first `=` in a plain character run, returning what follows. -/
def plainFindEq : List Char → Option (List Char)
  | [] => none
  | c :: cs => if c = '=' then some cs else plainFindEq cs

/-- Find the first top-level `=` of a parameter blob, skipping the inside
of closed wikilinks; state as in `splitAux`. -/
def findEqAux : Option (List Char) → List Char → Option (List Char)
  | none, [] => none
  | some lb, [] => plainFindEq lb.reverse
  | none, c :: cs =>
    if c = '=' then some cs
    else if c = '[' then
      match cs with
      | d :: cs2 => if d = '[' then findEqAux (some []) cs2 else findEqAux none (d :: cs2)
      | [] => none
    else findEqAux none cs
  | some lb, c :: cs =>
    if c = ']' then
      match cs with
      | d :: cs2 => if d = ']' then findEqAux none cs2 else findEqAux (some (c :: lb)) (d :: cs2)
      | [] => plainFindEq (c :: lb).reverse
    else findEqAux (some (c :: lb)) cs

/-- The value part of a parameter blob (`param.value`): everything after
the first top-level `=`, or the whole blob when there is none. -/
def paramValue (p : String) : String :=
  match findEqAux none p.data with
  | some v => String.mk v
  | none => p

/-- Collect the inner texts of all closed wikilinks `[[...]]` of a text
fragment (`filter_wikilinks()` at `bot.py:244,264`). -/
def extractAux : Option (List Char) → List Char → List (List Char)
  | none, [] => []
  | some _, [] => []
  | none, c :: cs =>
    if c = '[' then
      match cs with
      | d :: cs2 => if d = '[' then extractAux (some []) cs2 else extractAux none (d :: cs2)
      | [] => []
    else extractAux none cs
  | some lb, c :: cs =>
    if c = ']' then
      match cs with
      | d :: cs2 =>
        if d = ']' then lb.reverse :: extractAux none cs2
        else extractAux (some (c :: lb)) (d :: cs2)
      | [] => []
    else extractAux (some (c :: lb)) cs

/-- Model of Python's `s.split(sep)[0]`: the run before the first `sep`. -/
def pySplitHead (sep : Char) (cs : List Char) : List Char :=
  cs.takeWhile (fun c => !(c == sep))

/-- The title of a wikilink: the inner text before the first `|`
(mwparserfromhell's `link.title`). -/
def linkTitle (inner : List Char) : List Char :=
  inner.takeWhile (fun c => !(c == '|'))

/-- All wikilink targets of a text fragment:
`str(link.title).split("|")[0]` for each enumerated wikilink
(`bot.py:245,265`). -/
def extractTargets (s : String) : List String :=
  (extractAux none s.data).map (fun inner => String.mk (pySplitHead '|' (linkTitle inner)))

/-! ### The redlink filter (`process_pages`, `bot.py:232-276`) -/

/-- Lookup in the existence mapping with `False` as default:
`existence_cache.get(target, False)` (`bot.py:267`). -/
def cacheLookup (cache : String → Option Bool) (t : String) : Bool :=
  (cache t).getD false

/-- All wikilink targets of a template, over its parameters in order
(the two nested loops at `bot.py:262-265`). -/
def templateTargets (t : Template) : List String :=
  (t.params.map (fun p => extractTargets (paramValue p))).flatten

/-- The removal decision for one template: some target looks up as
non-existent (the loop with `break` at `bot.py:260-272`). -/
def shouldRemove (cache : String → Option Bool) (t : Template) : Bool :=
  (templateTargets t).any (fun x => !cacheLookup cache x)

/-- The targets actually consulted by the break-on-first-missing loop at
`bot.py:262-272`: the loop stops at the first target whose lookup is
false. -/
def consultedTargets (lookup : String → Bool) : List String → List String
  | [] => []
  | x :: xs => if lookup x then x :: consultedTargets lookup xs else [x]

/-- Whether `process_pages` removes a node: only templates whose stripped
name is in the hatnote set and whose removal decision fires
(`bot.py:256-276`). -/
def nodeRemoved (hatnotes : List String) (cache : String → Option Bool) : Node → Bool
  | Node.text _ => false
  | Node.template t => decide (pyStrip t.name ∈ hatnotes) && shouldRemove cache t

/-- The removal pass of `process_pages` (`bot.py:256-276`): drop every
removed template (`wikicode.remove(template)`) and report whether anything
was removed (`modified`). -/
def removeBroken (hatnotes : List String) (cache : String → Option Bool) (w : List Node) :
    List Node × Bool :=
  (w.filter (fun n => !nodeRemoved hatnotes cache n), w.any (fun n => nodeRemoved hatnotes cache n))

/-- The whole text-level filter of one page: parse, remove broken
hatnotes, serialize (`bot.py:232-281`). -/
def processText (hatnotes : List String) (cache : String → Option Bool) (text : String) :
    String × Bool :=
  (renderWikicode (removeBroken hatnotes cache (parseWikicode text)).1,
   (removeBroken hatnotes cache (parseWikicode text)).2)

/-! ### Target collection and the batched existence resolver -/

/-- All templates of the parsed document (`wikicode.filter_templates()`). -/
def allTemplates : List Node → List Template
  | [] => []
  | Node.text _ :: ns => allTemplates ns
  | Node.template t :: ns => t :: allTemplates ns

/-- Model of `set.add`: insert if not already present. -/
def addToSet (s : List String) (x : String) : List String :=
  if x ∈ s then s else s ++ [x]

/-- The collection pass of `process_pages` (`bot.py:235-247`): gather into
`targets_to_check` every target of a matched hatnote template that is not
already a key of the run-scoped existence cache. -/
def collectTargets (cache : String → Option Bool) (hatnotes : List String) (w : List Node) :
    List String :=
  (allTemplates w).foldl
    (fun acc t =>
      if pyStrip t.name ∈ hatnotes then
        (templateTargets t).foldl
          (fun acc2 tgt => if (cache tgt).isSome then acc2 else addToSet acc2 tgt) acc
      else acc)
    []

/-- Batches of at most 50 produced by `range(0, len(titles), 50)` with
slicing (`bot.py:197-200`).  `acc` holds the current batch reversed and the
`Nat` counts how many more titles the batch may absorb. -/
def chunkAux : List String → Nat → List String → List (List String)
  | acc, _, [] => [acc.reverse]
  | acc, 0, c :: cs => acc.reverse :: chunkAux [c] 49 cs
  | acc, n + 1, c :: cs => chunkAux (c :: acc) n cs

/-- Split a title list into consecutive batches of at most 50. -/
def chunk50 : List String → List (List String)
  | [] => []
  | c :: cs => chunkAux [c] 49 cs

/-- One page record of the existence API response: its (possibly
normalized) title, and whether the `missing` key is present. -/
structure ApiPage where
  title : String
  missing : Bool
deriving DecidableEq

/-- `get_pages_existence` (`bot.py:195-214`): query the titles in batches
of 50 and record, keyed by the title string **the API returned**,
`"missing" not in page`.  The second component counts the underlying API
queries issued (one per batch). -/
def get_pages_existence (api : List String → List ApiPage) (titles : List String) :
    (String → Option Bool) × Nat :=
  ((chunk50 titles).foldl
    (fun ex b =>
      (api b).foldl (fun ex2 p => fun t => if t = p.title then some (!p.missing) else ex2 t) ex)
    (fun _ => none),
   (chunk50 titles).length)

/-- `existence_cache.update(results)` (`bot.py:253`): the fresh results
override the cache. -/
def updateCache (cache res : String → Option Bool) : String → Option Bool :=
  fun t =>
    match res t with
    | some b => some b
    | none => cache t

/-- One page of `process_pages` after its text was fetched and parsed
(`bot.py:232-276`): collect uncached targets, batch-resolve them, merge
into the cache, then run the removal pass with the updated cache. -/
def processPageW (hatnotes : List String) (api : List String → List ApiPage)
    (cache : String → Option Bool) (w : List Node) :
    (List Node × Bool) × (String → Option Bool) :=
  (removeBroken hatnotes (updateCache cache (get_pages_existence api (collectTargets cache hatnotes w)).1) w,
   updateCache cache (get_pages_existence api (collectTargets cache hatnotes w)).1)

/-! ### Observable effects: printing, API traffic, editing, startup -/

/-- An observable effect of the bot process. -/
inductive Effect where
  | printLine (s : String)
  | apiGet (action : String)
  | apiPost (action : String)
deriving DecidableEq

/-- Whether an effect is a network call. -/
def isNetworkCall : Effect → Bool
  | Effect.apiGet _ => true
  | Effect.apiPost _ => true
  | Effect.printLine _ => false

/-- `edit_page` (`bot.py:170-188`): under the dry-run flag only a notice
is printed and no request is made; otherwise an edit POST is issued and its
result logged (`editOk` models `result["edit"]["result"] == "Success"`). -/
def edit_page (dryRun : Bool) (editOk : Bool) (title : String) : List Effect :=
  if dryRun then [Effect.printLine ("[DRY RUN] Would edit: " ++ title)]
  else
    Effect.apiPost ("edit") ::
      (if editOk then [Effect.printLine ("[+] Edited " ++ title)]
       else [Effect.printLine ("[ERROR] Edit failed:")])

/-- The conditional submission at the end of a page's processing
(`bot.py:278-284`): edit only when the text was modified. -/
def submitPhase (dryRun editOk : Bool) (title : String) (res : String × Bool) : List Effect :=
  if res.2 then edit_page dryRun editOk title else []

/-- `get_required_env` (`bot.py:15-20`): an absent, empty or
whitespace-only variable prints a fatal notice and aborts (`none`);
otherwise the stripped value is returned. -/
def get_required_env (env : String → Option String) (name : String) :
    List Effect × Option String :=
  match env name with
  | none => ([Effect.printLine ("[FATAL] Missing required environment variable: " ++ name)], none)
  | some v =>
    if v = "" ∨ pyStrip v = "" then
      ([Effect.printLine ("[FATAL] Missing required environment variable: " ++ name)], none)
    else ([], some (pyStrip v))

/-- Module-level initialisation (`bot.py:38-39`): read `BOT_USER` then
`BOT_PASSWORD`; a failure of the first aborts before the second is read. -/
def moduleInit (env : String → Option String) : List Effect × Option (String × String) :=
  match get_required_env env ("BOT_USER") with
  | (es, none) => (es, none)
  | (es, some user) =>
    match get_required_env env ("BOT_PASSWORD") with
    | (es2, none) => (es ++ es2, none)
    | (es2, some pw) => (es ++ es2, some (user, pw))

/-- The process: module initialisation, then — only when both credentials
were obtained — the body of `main` (login and everything after, abstracted
as `mainRun`).  The second component is the exit code
(`sys.exit(1)` at `bot.py:19`). -/
def runBot (env : String → Option String) (mainRun : String → String → List Effect) :
    List Effect × Nat :=
  match moduleInit env with
  | (es, none) => (es, 1)
  | (es, some creds) => (es ++ mainRun creds.1 creds.2, 0)

/-! ## Lemmas: losslessness of the parse/serialize pair -/

theorem data_mk (l : List Char) : (String.mk l).data = l := rfl

theorem strMk_data (s : String) : String.mk s.data = s := rfl

theorem plainSplit_ne_nil (cs : List Char) : ∀ cur, plainSplit cur cs ≠ [] := by
  induction cs with
  | nil => intro cur; simp [plainSplit]
  | cons c cs ih =>
    intro cur
    by_cases hc : c = '|'
    · simp [plainSplit, hc]
    · simpa [plainSplit, hc] using ih (c :: cur)

theorem joinChunks_cons (a : List Char) (l : List (List Char)) (h : l ≠ []) :
    joinChunks (a :: l) = a ++ '|' :: joinChunks l := by
  cases l with
  | nil => exact absurd rfl h
  | cons b t => rfl

theorem joinChunks_plainSplit (cs : List Char) :
    ∀ cur, joinChunks (plainSplit cur cs) = cur.reverse ++ cs := by
  induction cs with
  | nil => intro cur; simp [plainSplit, joinChunks]
  | cons c cs ih =>
    intro cur
    by_cases hc : c = '|'
    · subst hc
      have e : plainSplit cur ('|' :: cs) = cur.reverse :: plainSplit [] cs := by
        simp [plainSplit]
      rw [e, joinChunks_cons _ _ (plainSplit_ne_nil cs []), ih []]
      simp
    · simp only [plainSplit, if_neg hc]
      rw [ih (c :: cur)]
      simp

theorem splitAux_ne_nil : ∀ (n : Nat) (cs : List Char), cs.length ≤ n →
    ∀ (cur : List Char) (st : Option (List Char)), splitAux cur st cs ≠ [] := by
  intro n
  induction n with
  | zero =>
    intro cs hl cur st
    have hnil : cs = [] := List.length_eq_zero.mp (Nat.le_zero.mp hl)
    subst hnil
    cases st with
    | none => simp [splitAux]
    | some lb => simpa [splitAux] using plainSplit_ne_nil _ cur
  | succ n ih =>
    intro cs hl cur st
    cases cs with
    | nil =>
      cases st with
      | none => simp [splitAux]
      | some lb => simpa [splitAux] using plainSplit_ne_nil _ cur
    | cons c cs =>
      have hcs : cs.length ≤ n := by simp at hl; omega
      cases st with
      | none =>
        rw [splitAux.eq_def]
        dsimp only
        by_cases hp : c = '|'
        · simp [hp]
        · rw [if_neg hp]
          by_cases hb : c = '['
          · rw [if_pos hb]
            cases cs with
            | nil => dsimp only; simp
            | cons d cs2 =>
              have hcs2 : cs2.length ≤ n := by simp at hl; omega
              dsimp only
              by_cases hd : d = '['
              · rw [if_pos hd]; exact ih cs2 hcs2 cur (some [])
              · rw [if_neg hd]; exact ih (d :: cs2) hcs (c :: cur) none
          · rw [if_neg hb]; exact ih cs hcs (c :: cur) none
      | some lb =>
        rw [splitAux.eq_def]
        dsimp only
        by_cases hr : c = ']'
        · rw [if_pos hr]
          cases cs with
          | nil => dsimp only; exact plainSplit_ne_nil _ cur
          | cons d cs2 =>
            have hcs2 : cs2.length ≤ n := by simp at hl; omega
            dsimp only
            by_cases hd : d = ']'
            · rw [if_pos hd]; exact ih cs2 hcs2 _ none
            · rw [if_neg hd]; exact ih (d :: cs2) hcs cur (some (c :: lb))
        · rw [if_neg hr]; exact ih cs hcs cur (some (c :: lb))

theorem splitAux_ne_nil' (cur : List Char) (st : Option (List Char)) (cs : List Char) :
    splitAux cur st cs ≠ [] :=
  splitAux_ne_nil cs.length cs le_rfl cur st

theorem joinChunks_splitAux : ∀ (n : Nat) (cs : List Char), cs.length ≤ n →
    ∀ (cur : List Char) (st : Option (List Char)),
      joinChunks (splitAux cur st cs) = cur.reverse ++ pendLink st ++ cs := by
  intro n
  induction n with
  | zero =>
    intro cs hl cur st
    have hnil : cs = [] := List.length_eq_zero.mp (Nat.le_zero.mp hl)
    subst hnil
    cases st with
    | none => simp [splitAux, joinChunks, pendLink]
    | some lb => simp [splitAux, joinChunks_plainSplit, pendLink]
  | succ n ih =>
    intro cs hl cur st
    cases cs with
    | nil =>
      cases st with
      | none => simp [splitAux, joinChunks, pendLink]
      | some lb => simp [splitAux, joinChunks_plainSplit, pendLink]
    | cons c cs =>
      have hcs : cs.length ≤ n := by simp at hl; omega
      cases st with
      | none =>
        rw [splitAux.eq_def]
        dsimp only
        by_cases hp : c = '|'
        · rw [if_pos hp, joinChunks_cons _ _ (splitAux_ne_nil' [] none cs), ih cs hcs [] none]
          subst hp; simp [pendLink]
        · rw [if_neg hp]
          by_cases hb : c = '['
          · rw [if_pos hb]
            cases cs with
            | nil => dsimp only; simp [joinChunks, pendLink]
            | cons d cs2 =>
              have hcs2 : cs2.length ≤ n := by simp at hl; omega
              dsimp only
              by_cases hd : d = '['
              · rw [if_pos hd, ih cs2 hcs2 cur (some [])]
                subst hb; subst hd; simp [pendLink]
              · rw [if_neg hd, ih (d :: cs2) hcs (c :: cur) none]
                simp [pendLink]
          · rw [if_neg hb, ih cs hcs (c :: cur) none]
            simp [pendLink]
      | some lb =>
        rw [splitAux.eq_def]
        dsimp only
        by_cases hr : c = ']'
        · rw [if_pos hr]
          cases cs with
          | nil =>
            dsimp only
            rw [joinChunks_plainSplit]
            subst hr; simp [pendLink]
          | cons d cs2 =>
            have hcs2 : cs2.length ≤ n := by simp at hl; omega
            dsimp only
            by_cases hd : d = ']'
            · rw [if_pos hd, ih cs2 hcs2 _ none]
              subst hr; subst hd; simp [pendLink]
            · rw [if_neg hd, ih (d :: cs2) hcs cur (some (c :: lb))]
              simp [pendLink]
        · rw [if_neg hr, ih cs hcs cur (some (c :: lb))]
          simp [pendLink]

theorem splitParams_join (body : List Char) : joinChunks (splitParams body) = body := by
  simpa [splitParams, pendLink] using joinChunks_splitAux body.length body le_rfl [] none

theorem splitParams_ne_nil (body : List Char) : splitParams body ≠ [] :=
  splitAux_ne_nil' [] none body

theorem renderTemplate_mkTemplate (body : List Char) :
    renderTemplate (mkTemplate body) = '\x7b' :: '\x7b' :: (body ++ ['\x7d', '\x7d']) := by
  unfold mkTemplate
  cases h : splitParams body with
  | nil => exact absurd h (splitParams_ne_nil body)
  | cons nm ps =>
    have hj : joinChunks (nm :: ps) = body := by rw [← h]; exact splitParams_join body
    simp only [renderTemplate, data_mk, List.map_map]
    have hcomp : (String.data ∘ String.mk) = id := funext data_mk
    rw [hcomp, List.map_id, hj]

theorem renderChars_consText (c : Char) (ns : List Node) :
    renderChars (consText c ns) = c :: renderChars ns := by
  cases ns with
  | nil => rfl
  | cons n ns =>
    cases n with
    | text s => rfl
    | template t => rfl

theorem renderChars_parseAux : ∀ (n : Nat) (cs : List Char), cs.length ≤ n →
    ∀ st, renderChars (parseAux st cs) = pendText st ++ cs := by
  intro n
  induction n with
  | zero =>
    intro cs hl st
    have hnil : cs = [] := List.length_eq_zero.mp (Nat.le_zero.mp hl)
    subst hnil
    cases st with
    | none => simp [parseAux, renderChars, pendText]
    | some buf => simp [parseAux, renderChars, renderNode, data_mk, pendText]
  | succ n ih =>
    intro cs hl st
    cases cs with
    | nil =>
      cases st with
      | none => simp [parseAux, renderChars, pendText]
      | some buf => simp [parseAux, renderChars, renderNode, data_mk, pendText]
    | cons c cs =>
      have hcs : cs.length ≤ n := by simp at hl; omega
      cases st with
      | none =>
        rw [parseAux.eq_def]
        dsimp only
        by_cases hc : c = '\x7b'
        · rw [if_pos hc]
          cases cs with
          | nil =>
            dsimp only
            subst hc; simp [renderChars, renderNode, data_mk, pendText]
          | cons d cs2 =>
            have hcs2 : cs2.length ≤ n := by simp at hl; omega
            dsimp only
            by_cases hd : d = '\x7b'
            · rw [if_pos hd, ih cs2 hcs2 (some [])]
              subst hc; subst hd; simp [pendText]
            · rw [if_neg hd, renderChars_consText, ih (d :: cs2) hcs none]
              simp [pendText]
        · rw [if_neg hc, renderChars_consText, ih cs hcs none]
          simp [pendText]
      | some buf =>
        rw [parseAux.eq_def]
        dsimp only
        by_cases hc : c = '\x7d'
        · rw [if_pos hc]
          cases cs with
          | nil =>
            dsimp only
            subst hc
            simp [renderChars, renderNode, data_mk, pendText, List.reverse_cons]
          | cons d cs2 =>
            have hcs2 : cs2.length ≤ n := by simp at hl; omega
            dsimp only
            by_cases hd : d = '\x7d'
            · rw [if_pos hd]
              show renderTemplate (mkTemplate buf.reverse) ++ renderChars (parseAux none cs2) = _
              rw [renderTemplate_mkTemplate, ih cs2 hcs2 none]
              subst hc; subst hd; simp [pendText]
            · rw [if_neg hd, ih (d :: cs2) hcs (some (c :: buf))]
              simp [pendText, List.reverse_cons]
        · rw [if_neg hc, ih cs hcs (some (c :: buf))]
          simp [pendText, List.reverse_cons]

theorem render_parse (s : String) : renderWikicode (parseWikicode s) = s := by
  have h := renderChars_parseAux s.data.length s.data le_rfl none
  simp only [pendText, List.nil_append] at h
  rw [renderWikicode, parseWikicode, h, strMk_data]

/-! ## Lemmas: re-parsing the serialized filtered document

The text-level idempotence claim needs that parsing the wikitext produced
by the filter yields no removable template.  The lemmas below characterise
`parseAux` in template state through `findPair` and show that serialized
kept templates re-parse to the same template value while text runs never
give rise to new templates. -/

theorem findPair_sound (x y : Char) : ∀ (cs body rest : List Char),
    findPair x y cs = some (body, rest) → cs = body ++ x :: y :: rest := by
  intro cs
  induction cs with
  | nil => intro body rest h; simp [findPair] at h
  | cons c cs ih =>
    intro body rest h
    cases cs with
    | nil => simp [findPair] at h
    | cons d cs2 =>
      rw [findPair.eq_def] at h
      dsimp only at h
      by_cases hxy : c = x ∧ d = y
      · rw [if_pos hxy] at h
        simp only [Option.some.injEq, Prod.mk.injEq] at h
        obtain ⟨h1, h2⟩ := h
        subst h1
        subst h2
        simp [hxy.1, hxy.2]
      · rw [if_neg hxy] at h
        cases hf : findPair x y (d :: cs2) with
        | none => rw [hf] at h; simp at h
        | some pr =>
          obtain ⟨b2, r2⟩ := pr
          rw [hf] at h
          simp only [Option.some.injEq, Prod.mk.injEq] at h
          obtain ⟨h1, h2⟩ := h
          subst h1
          subst h2
          have hs := ih b2 r2 hf
          rw [List.cons_append, ← hs]

theorem findPair_clean (x y : Char) : ∀ (cs body rest : List Char),
    findPair x y cs = some (body, rest) → containsPair x y (body ++ [x]) = false := by
  intro cs
  induction cs with
  | nil => intro body rest h; simp [findPair] at h
  | cons c cs ih =>
    intro body rest h
    cases cs with
    | nil => simp [findPair] at h
    | cons d cs2 =>
      rw [findPair.eq_def] at h
      dsimp only at h
      by_cases hxy : c = x ∧ d = y
      · rw [if_pos hxy] at h
        simp only [Option.some.injEq, Prod.mk.injEq] at h
        obtain ⟨h1, h2⟩ := h
        subst h1
        simp [containsPair]
      · rw [if_neg hxy] at h
        cases hf : findPair x y (d :: cs2) with
        | none => rw [hf] at h; simp at h
        | some pr =>
          obtain ⟨b2, r2⟩ := pr
          rw [hf] at h
          simp only [Option.some.injEq, Prod.mk.injEq] at h
          obtain ⟨h1, h2⟩ := h
          subst h1
          have hclean := ih b2 r2 hf
          have hsound := findPair_sound x y (d :: cs2) b2 r2 hf
          cases hb2 : b2 with
          | nil =>
            subst hb2
            have hd : d = x := by
              simp only [List.nil_append] at hsound
              exact (List.cons.injEq _ _ _ _).mp hsound |>.1
            have hne : ¬(c = x ∧ x = y) := by
              intro hq
              exact hxy ⟨hq.1, by rw [hd, hq.2]⟩
            have hcf : (decide (c = x) && decide (x = y)) = false := by
              simp only [Bool.and_eq_false_iff, decide_eq_false_iff_not]
              by_cases hcx : c = x
              · exact Or.inr fun hq => hne ⟨hcx, hq⟩
              · exact Or.inl hcx
            simp [containsPair, hcf]
          | cons e b3 =>
            subst hb2
            have hd : d = e := by
              simp only [List.cons_append] at hsound
              exact (List.cons.injEq _ _ _ _).mp hsound |>.1
            have hne : ¬(c = x ∧ e = y) := by
              intro hq
              exact hxy ⟨hq.1, by rw [hd, hq.2]⟩
            simp only [List.cons_append, containsPair, Bool.or_eq_false_iff]
            constructor
            · simp only [Bool.and_eq_false_iff, decide_eq_false_iff_not]
              by_cases hcx : c = x
              · exact Or.inr fun he => hne ⟨hcx, he⟩
              · exact Or.inl hcx
            · simpa using hclean

theorem findPair_close (x y : Char) (cs : List Char) :
    findPair x y (x :: y :: cs) = some ([], cs) := by
  simp [findPair]

theorem findPair_cons (x y c d : Char) (cs : List Char) (h : ¬(c = x ∧ d = y)) :
    findPair x y (c :: d :: cs) =
      match findPair x y (d :: cs) with
      | some (body, rest) => some (c :: body, rest)
      | none => none := by
  rw [findPair.eq_def]
  dsimp only
  rw [if_neg h]

theorem findPair_append (x y : Char) : ∀ (body : List Char),
    containsPair x y (body ++ [x]) = false →
    ∀ (tail : List Char), findPair x y (body ++ x :: y :: tail) = some (body, tail) := by
  intro body
  induction body with
  | nil =>
    intro _ tail
    simpa using findPair_close x y tail
  | cons c b2 ih =>
    intro hclean tail
    cases hb2 : b2 with
    | nil =>
      subst hb2
      have hne : ¬(c = x ∧ x = y) := by
        intro hq
        simp [containsPair, hq.1, hq.2] at hclean
      rw [List.cons_append, List.nil_append]
      rw [findPair_cons x y c x (y :: tail) hne]
      rw [findPair_close x y tail]
    | cons e b3 =>
      subst hb2
      have hne : ¬(c = x ∧ e = y) := by
        intro hq
        simp [containsPair, hq.1, hq.2] at hclean
      have hclean2 : containsPair x y ((e :: b3) ++ [x]) = false := by
        simp only [List.cons_append, containsPair, Bool.or_eq_false_iff] at hclean
        exact hclean.2
      have hrec := ih hclean2 tail
      simp only [List.cons_append] at hrec ⊢
      rw [findPair_cons x y c e (b3 ++ x :: y :: tail) hne]
      rw [hrec]

theorem parseAux_some_eq : ∀ (cs buf : List Char),
    parseAux (some buf) cs =
      match findPair '\x7d' '\x7d' cs with
      | some (body, rest) =>
        Node.template (mkTemplate (buf.reverse ++ body)) :: parseAux none rest
      | none => [Node.text (String.mk ('\x7b' :: '\x7b' :: (buf.reverse ++ cs)))] := by
  intro cs
  induction cs with
  | nil =>
    intro buf
    simp [parseAux, findPair]
  | cons c cs ih =>
    intro buf
    cases cs with
    | nil =>
      rw [parseAux.eq_def]
      dsimp only
      by_cases hc : c = '\x7d'
      · rw [if_pos hc]
        simp [findPair, List.reverse_cons, List.append_assoc]
      · rw [if_neg hc]
        rw [ih (c :: buf)]
        simp [findPair, List.reverse_cons, List.append_assoc]
    | cons d cs2 =>
      rw [parseAux.eq_def]
      dsimp only
      by_cases hc : c = '\x7d'
      · rw [if_pos hc]
        by_cases hd : d = '\x7d'
        · rw [if_pos hd]
          subst hc
          subst hd
          rw [findPair_close]
          simp
        · rw [if_neg hd]
          rw [ih (c :: buf)]
          rw [findPair_cons _ _ c d cs2 (fun hq => hd hq.2)]
          cases hf : findPair '\x7d' '\x7d' (d :: cs2) with
          | none => simp [List.reverse_cons, List.append_assoc]
          | some pr =>
            obtain ⟨b2, r2⟩ := pr
            simp [List.reverse_cons, List.append_assoc]
      · rw [if_neg hc]
        rw [ih (c :: buf)]
        rw [findPair_cons _ _ c d cs2 (fun hq => hc hq.1)]
        cases hf : findPair '\x7d' '\x7d' (d :: cs2) with
        | none => simp [List.reverse_cons, List.append_assoc]
        | some pr =>
          obtain ⟨b2, r2⟩ := pr
          simp [List.reverse_cons, List.append_assoc]

theorem parseAux_open (cs : List Char) :
    parseAux none ('\x7b' :: '\x7b' :: cs) = parseAux (some []) cs := by
  rw [parseAux.eq_def]
  dsimp only
  rw [if_pos rfl, if_pos rfl]

theorem parseAux_cons_top (c : Char) (l : List Char)
    (h : c = '\x7b' → ∀ d, l.head? = some d → d ≠ '\x7b') :
    parseAux none (c :: l) = consText c (parseAux none l) := by
  rw [parseAux.eq_def]
  dsimp only
  by_cases hc : c = '\x7b'
  · rw [if_pos hc]
    cases l with
    | nil => rfl
    | cons d l2 =>
      have hd : d ≠ '\x7b' := h hc d rfl
      dsimp only
      rw [if_neg hd]
  · rw [if_neg hc]

theorem mem_consText (c : Char) (nd : Node) (ns : List Node) (h : nd ∈ consText c ns) :
    (∃ s, nd = Node.text s) ∨ nd ∈ ns := by
  cases ns with
  | nil =>
    have e : consText c [] = [Node.text (String.mk [c])] := rfl
    rw [e] at h
    exact Or.inl ⟨_, List.mem_singleton.mp h⟩
  | cons m ms =>
    cases m with
    | text s =>
      have e : consText c (Node.text s :: ms)
          = Node.text (String.mk (c :: s.data)) :: ms := rfl
      rw [e] at h
      rcases List.mem_cons.mp h with h | h
      · exact Or.inl ⟨_, h⟩
      · exact Or.inr (List.mem_cons_of_mem _ h)
    | template t =>
      have e : consText c (Node.template t :: ms)
          = Node.text (String.mk [c]) :: Node.template t :: ms := rfl
      rw [e] at h
      rcases List.mem_cons.mp h with h | h
      · exact Or.inl ⟨_, h⟩
      · exact Or.inr h

theorem render_filter_consText (hatnotes : List String) (cache : String → Option Bool)
    (c : Char) (ns : List Node) :
    renderChars ((consText c ns).filter (fun m => !nodeRemoved hatnotes cache m))
      = c :: renderChars (ns.filter (fun m => !nodeRemoved hatnotes cache m)) := by
  cases ns with
  | nil => rfl
  | cons m ms =>
    cases m with
    | text s =>
      have e : consText c (Node.text s :: ms)
          = Node.text (String.mk (c :: s.data)) :: ms := rfl
      rw [e]
      simp [List.filter_cons, nodeRemoved, renderChars, renderNode, data_mk]
    | template t =>
      have e : consText c (Node.template t :: ms)
          = Node.text (String.mk [c]) :: Node.template t :: ms := rfl
      rw [e]
      simp only [List.filter_cons]
      simp [nodeRemoved, renderChars, renderNode, data_mk]

theorem reparse_all_kept (hatnotes : List String) (cache : String → Option Bool) :
    ∀ (n : Nat) (cs : List Char), cs.length ≤ n →
    ∀ nd ∈ parseAux none
        (renderChars ((parseAux none cs).filter (fun m => !nodeRemoved hatnotes cache m))),
      nodeRemoved hatnotes cache nd = false := by
  intro n
  induction n with
  | zero =>
    intro cs hl nd hnd
    have hnil : cs = [] := List.length_eq_zero.mp (Nat.le_zero.mp hl)
    subst hnil
    simp [parseAux, renderChars] at hnd
  | succ n ih =>
    intro cs hl nd hnd
    cases cs with
    | nil => simp [parseAux, renderChars] at hnd
    | cons c cs' =>
      have hlen : cs'.length ≤ n := by simp at hl; omega
      by_cases hopen : c = '\x7b' ∧ cs'.head? = some '\x7b'
      · obtain ⟨hc, hh⟩ := hopen
        subst hc
        cases cs' with
        | nil => simp at hh
        | cons e rest =>
          have he : e = '\x7b' := by simpa using hh
          subst he
          rw [parseAux_open, parseAux_some_eq] at hnd
          cases hf : findPair '\x7d' '\x7d' rest with
          | none =>
            rw [hf] at hnd
            dsimp only at hnd
            simp only [List.reverse_nil, List.nil_append] at hnd
            have hkeeptext : (fun m => !nodeRemoved hatnotes cache m)
                (Node.text (String.mk ('\x7b' :: '\x7b' :: rest))) = true := by
              simp [nodeRemoved]
            simp only [List.filter_cons, hkeeptext, if_true, List.filter_nil] at hnd
            simp only [renderChars, renderNode, data_mk, List.append_nil] at hnd
            rw [parseAux_open, parseAux_some_eq, hf] at hnd
            dsimp only at hnd
            rw [List.mem_singleton.mp hnd]
            rfl
          | some pr =>
            obtain ⟨body, rest2⟩ := pr
            rw [hf] at hnd
            dsimp only at hnd
            simp only [List.reverse_nil, List.nil_append] at hnd
            have hsound := findPair_sound _ _ rest body rest2 hf
            have hlen2 : rest2.length ≤ n := by
              have hq := congrArg List.length hsound
              simp [List.length_append] at hq
              simp at hl
              omega
            cases hkeep : nodeRemoved hatnotes cache (Node.template (mkTemplate body)) with
            | true =>
              simp only [List.filter_cons, hkeep, Bool.not_true, Bool.false_eq_true,
                if_false] at hnd
              exact ih rest2 hlen2 nd hnd
            | false =>
              simp only [List.filter_cons, hkeep, Bool.not_false, if_true] at hnd
              simp only [renderChars, renderNode] at hnd
              rw [renderTemplate_mkTemplate] at hnd
              simp only [List.cons_append, List.append_assoc, List.nil_append] at hnd
              rw [parseAux_open, parseAux_some_eq] at hnd
              rw [findPair_append '\x7d' '\x7d' body
                (findPair_clean _ _ rest body rest2 hf) _] at hnd
              dsimp only at hnd
              simp only [List.reverse_nil, List.nil_append] at hnd
              rcases List.mem_cons.mp hnd with hq | hq
              · rw [hq]
                exact hkeep
              · exact ih rest2 hlen2 nd hq
      · have hcond : c = '\x7b' → ∀ d, cs'.head? = some d → d ≠ '\x7b' := by
          intro hc d hd hdeq
          rw [hdeq] at hd
          exact hopen ⟨hc, hd⟩
        rw [parseAux_cons_top c cs' hcond] at hnd
        rw [render_filter_consText] at hnd
        have hcond2 : c = '\x7b' → ∀ d,
            (renderChars ((parseAux none cs').filter
              (fun m => !nodeRemoved hatnotes cache m))).head? = some d → d ≠ '\x7b' := by
          intro hc d hd
          cases cs' with
          | nil => simp [parseAux, renderChars] at hd
          | cons d0 cs2 =>
            have hd0 : d0 ≠ '\x7b' := hcond hc d0 rfl
            have e : parseAux none (d0 :: cs2) = consText d0 (parseAux none cs2) :=
              parseAux_cons_top d0 cs2 (fun hq => absurd hq hd0)
            rw [e, render_filter_consText] at hd
            simp only [List.head?_cons, Option.some.injEq] at hd
            rw [← hd]
            exact hd0
        rw [parseAux_cons_top c _ hcond2] at hnd
        rcases mem_consText c nd _ hnd with ⟨s, hs⟩ | hmem
        · rw [hs]
          rfl
        · exact ih cs' hlen nd hmem

/-! ## Lemmas: the removal pass -/

theorem consultedTargets_eq (lookup : String → Bool) (l : List String) :
    consultedTargets lookup l = l.takeWhile lookup ++ (l.dropWhile lookup).take 1 := by
  induction l with
  | nil => rfl
  | cons x xs ih =>
    cases hx : lookup x with
    | true => simp [consultedTargets, hx, List.takeWhile_cons, List.dropWhile_cons, ih]
    | false => simp [consultedTargets, hx, List.takeWhile_cons, List.dropWhile_cons]

theorem shouldRemove_eq_consulted (cache : String → Option Bool) (t : Template) :
    shouldRemove cache t
      = (consultedTargets (cacheLookup cache) (templateTargets t)).any
          (fun x => !cacheLookup cache x) := by
  rw [shouldRemove]
  generalize templateTargets t = l
  induction l with
  | nil => rfl
  | cons x xs ih =>
    cases hx : cacheLookup cache x with
    | true => simp [consultedTargets, hx, ih]
    | false => simp [consultedTargets, hx]

theorem nodeRemoved_of_missing (hatnotes : List String) (cache : String → Option Bool)
    (t : Template) (x : String) (hname : pyStrip t.name ∈ hatnotes)
    (hx : x ∈ templateTargets t) (hlk : cacheLookup cache x = false) :
    nodeRemoved hatnotes cache (Node.template t) = true := by
  simp only [nodeRemoved, Bool.and_eq_true, decide_eq_true_eq]
  exact ⟨hname, List.any_eq_true.mpr ⟨x, hx, by simp [hlk]⟩⟩

theorem removeBroken_removes (hatnotes : List String) (cache : String → Option Bool)
    (w : List Node) (t : Template) (hmem : Node.template t ∈ w)
    (hrem : nodeRemoved hatnotes cache (Node.template t) = true) :
    Node.template t ∉ (removeBroken hatnotes cache w).1
    ∧ (removeBroken hatnotes cache w).2 = true := by
  constructor
  · intro hin
    have h2 := (List.mem_filter.mp hin).2
    rw [hrem] at h2
    exact absurd h2 (by simp)
  · exact List.any_eq_true.mpr ⟨Node.template t, hmem, hrem⟩

theorem allTemplates_append (w1 w2 : List Node) :
    allTemplates (w1 ++ w2) = allTemplates w1 ++ allTemplates w2 := by
  induction w1 with
  | nil => rfl
  | cons n ns ih =>
    cases n with
    | text s => simpa [allTemplates] using ih
    | template t => simp [allTemplates, ih]

theorem flatten_eq_nil_of_all {α : Type} (l : List (List α)) (h : ∀ x ∈ l, x = []) :
    l.flatten = [] := by
  induction l with
  | nil => rfl
  | cons a t ih =>
    have ha : a = [] := h a (by simp)
    have ht : t.flatten = [] := ih (fun x hx => h x (by simp [hx]))
    simp [ha, ht]

/-! ## Claim theorems and witnesses -/

/-- C1: for every wikitext document, hatnote-name set and existence
mapping, a template in the document whose trimmed name is in the set and
one of whose extracted wikilink targets resolves as non-existent is removed
by the filter, which reports `modified = true`; moreover the removal loop
consults targets only up to and including the first missing one (the
targets after the first missing one are not consulted) and the removal
decision equals the any-missing test over that consulted prefix alone. -/
theorem c1_removes_template_with_missing_target
    (hatnotes : List String) (cache : String → Option Bool) (w : List Node)
    (t : Template) (hmem : Node.template t ∈ w)
    (hname : pyStrip t.name ∈ hatnotes)
    (hmiss : ∃ x ∈ templateTargets t, cacheLookup cache x = false) :
    Node.template t ∉ (removeBroken hatnotes cache w).1
    ∧ (removeBroken hatnotes cache w).2 = true
    ∧ consultedTargets (cacheLookup cache) (templateTargets t)
        = (templateTargets t).takeWhile (cacheLookup cache)
          ++ ((templateTargets t).dropWhile (cacheLookup cache)).take 1
    ∧ shouldRemove cache t
        = (consultedTargets (cacheLookup cache) (templateTargets t)).any
            (fun x => !cacheLookup cache x) := by
  obtain ⟨x, hx, hlk⟩ := hmiss
  obtain ⟨h1, h2⟩ := removeBroken_removes hatnotes cache w t hmem
    (nodeRemoved_of_missing hatnotes cache t x hname hx hlk)
  exact ⟨h1, h2, consultedTargets_eq _ _, shouldRemove_eq_consulted _ _⟩

theorem c1_witness :
    Node.template ⟨"Hatnote", ["[[Gone]]"]⟩ ∉
      (removeBroken ["Hatnote"] (fun s => if s = "Gone" then some false else none)
        (parseWikicode ("x\x7b\x7bHatnote|[[Gone]]\x7d\x7dy"))).1
    ∧ (removeBroken ["Hatnote"] (fun s => if s = "Gone" then some false else none)
        (parseWikicode ("x\x7b\x7bHatnote|[[Gone]]\x7d\x7dy"))).2 = true := by
  have h := c1_removes_template_with_missing_target
    ["Hatnote"] (fun s => if s = "Gone" then some false else none)
    (parseWikicode ("x\x7b\x7bHatnote|[[Gone]]\x7d\x7dy"))
    ⟨"Hatnote", ["[[Gone]]"]⟩ (by decide) (by decide)
    ⟨"Gone", by decide, by decide⟩
  exact ⟨h.1, h.2.1⟩

/-- C2: when every wikilink target of every matched hatnote template of the
document resolves to existing, the filter returns the input wikitext
byte-for-byte unchanged through the parse-then-serialize round trip and
reports `modified = false`. -/
theorem c2_all_exist_unchanged
    (hatnotes : List String) (cache : String → Option Bool) (text : String)
    (hall : ∀ t : Template, Node.template t ∈ parseWikicode text →
        pyStrip t.name ∈ hatnotes → ∀ x ∈ templateTargets t, cacheLookup cache x = true) :
    processText hatnotes cache text = (text, false)
    ∧ ∀ (dryRun editOk : Bool) (title : String),
        submitPhase dryRun editOk title (processText hatnotes cache text) = [] := by
  have hkeep : ∀ nd ∈ parseWikicode text, nodeRemoved hatnotes cache nd = false := by
    intro nd hnd
    cases nd with
    | text s => rfl
    | template t =>
      by_cases hname : pyStrip t.name ∈ hatnotes
      · have hsr : shouldRemove cache t = false := by
          rw [shouldRemove, List.any_eq_false]
          intro x hx
          simp [hall t hnd hname x hx]
        simp [nodeRemoved, hsr]
      · simp [nodeRemoved, hname]
  have hfil : (parseWikicode text).filter (fun nd => !nodeRemoved hatnotes cache nd)
      = parseWikicode text :=
    List.filter_eq_self.mpr (by intro a ha; simp [hkeep a ha])
  have hany : (parseWikicode text).any (fun nd => nodeRemoved hatnotes cache nd) = false :=
    List.any_eq_false.mpr (by intro a ha; simp [hkeep a ha])
  have hmain : processText hatnotes cache text = (text, false) := by
    rw [processText, removeBroken]
    simp only [hfil, hany]
    rw [render_parse]
  refine ⟨hmain, ?_⟩
  intro dryRun editOk title
  rw [submitPhase, hmain]
  simp

theorem c2_witness :
    processText ["Hatnote"] (fun s => if s = "Real Page" then some true else none)
      ("\x7b\x7bHatnote|See also [[Real Page]]\x7d\x7d")
      = ("\x7b\x7bHatnote|See also [[Real Page]]\x7d\x7d", false)
    ∧ submitPhase true true ("Article")
        (processText ["Hatnote"] (fun s => if s = "Real Page" then some true else none)
          ("\x7b\x7bHatnote|See also [[Real Page]]\x7d\x7d")) = [] := by
  have hall : ∀ t : Template,
      Node.template t ∈ parseWikicode ("\x7b\x7bHatnote|See also [[Real Page]]\x7d\x7d") →
      pyStrip t.name ∈ ["Hatnote"] → ∀ x ∈ templateTargets t,
        cacheLookup (fun s => if s = "Real Page" then some true else none) x = true := by
    intro t ht hname x hx
    have hp : parseWikicode ("\x7b\x7bHatnote|See also [[Real Page]]\x7d\x7d")
        = [Node.template ⟨"Hatnote", ["See also [[Real Page]]"]⟩] := by decide
    rw [hp] at ht
    have ht' : t = ⟨"Hatnote", ["See also [[Real Page]]"]⟩ := by
      cases List.mem_singleton.mp ht
      rfl
    subst ht'
    have hx' : x = "Real Page" := by
      have hq : templateTargets ⟨"Hatnote", ["See also [[Real Page]]"]⟩ = ["Real Page"] := by
        decide
      rw [hq] at hx
      exact List.mem_singleton.mp hx
    subst hx'
    decide
  have h := c2_all_exist_unchanged ["Hatnote"]
    (fun s => if s = "Real Page" then some true else none)
    ("\x7b\x7bHatnote|See also [[Real Page]]\x7d\x7d") hall
  exact ⟨h.1, h.2 true true ("Article")⟩

/-- C5: template-name matching of the removal pass is exact equality of
the trimmed name against a member of the hatnote-name set (string equality,
hence no case folding): a template whose trimmed name is not in the set —
in particular one differing from every member only in character case — is
neither checked (it contributes nothing to the collected targets) nor
removed (its occurrence count is unchanged by the removal pass). -/
theorem c5_unmatched_name_neither_checked_nor_removed
    (hatnotes : List String) (cache : String → Option Bool) (w1 w2 : List Node)
    (t : Template) (hname : pyStrip t.name ∉ hatnotes) :
    (removeBroken hatnotes cache (w1 ++ Node.template t :: w2)).1.count (Node.template t)
        = (w1 ++ Node.template t :: w2).count (Node.template t)
    ∧ collectTargets cache hatnotes (w1 ++ Node.template t :: w2)
        = collectTargets cache hatnotes (w1 ++ w2) := by
  constructor
  · have hp : (fun n => !nodeRemoved hatnotes cache n) (Node.template t) = true := by
      simp [nodeRemoved, hname]
    exact List.count_filter hp
  · rw [collectTargets, collectTargets]
    rw [show (w1 ++ Node.template t :: w2) = w1 ++ (Node.template t :: w2) from rfl]
    rw [allTemplates_append, allTemplates_append]
    rw [show allTemplates (Node.template t :: w2) = t :: allTemplates w2 from rfl]
    rw [List.foldl_append, List.foldl_append, List.foldl_cons]
    congr 1
    exact if_neg hname

theorem c5_witness :
    (removeBroken ["Hatnote"] (fun _ => some false)
        (parseWikicode ("\x7b\x7bhatnote|[[Gone]]\x7d\x7d"))).1.count
          (Node.template ⟨"hatnote", ["[[Gone]]"]⟩)
      = (parseWikicode ("\x7b\x7bhatnote|[[Gone]]\x7d\x7d")).count
          (Node.template ⟨"hatnote", ["[[Gone]]"]⟩)
    ∧ collectTargets (fun _ => some false) ["Hatnote"]
        (parseWikicode ("\x7b\x7bhatnote|[[Gone]]\x7d\x7d"))
      = collectTargets (fun _ => some false) ["Hatnote"] [] := by
  have hp : parseWikicode ("\x7b\x7bhatnote|[[Gone]]\x7d\x7d")
      = [] ++ Node.template ⟨"hatnote", ["[[Gone]]"]⟩ :: [] := by decide
  have h := c5_unmatched_name_neither_checked_nor_removed
    ["Hatnote"] (fun _ => some false) [] [] ⟨"hatnote", ["[[Gone]]"]⟩ (by decide)
  rw [hp]
  exact h

/-- C6: a template with no wikilinks in any of its parameter values is
never removed, whatever the existence mapping: its removal decision is
false and its occurrence count is unchanged by the removal pass. -/
theorem c6_no_wikilinks_never_removed
    (hatnotes : List String) (cache : String → Option Bool) (w : List Node)
    (t : Template) (hnolinks : ∀ p ∈ t.params, extractTargets (paramValue p) = []) :
    shouldRemove cache t = false
    ∧ (removeBroken hatnotes cache w).1.count (Node.template t)
        = w.count (Node.template t) := by
  have htg : templateTargets t = [] := by
    rw [templateTargets]
    exact flatten_eq_nil_of_all _ (by
      intro x hx
      obtain ⟨p, hp, hpx⟩ := List.mem_map.mp hx
      rw [← hpx]
      exact hnolinks p hp)
  have hsr : shouldRemove cache t = false := by rw [shouldRemove, htg]; rfl
  refine ⟨hsr, ?_⟩
  have hp : (fun n => !nodeRemoved hatnotes cache n) (Node.template t) = true := by
    simp [nodeRemoved, hsr]
  exact List.count_filter hp

theorem c6_witness :
    shouldRemove (fun _ => some false) ⟨"Hatnote", ["no links here"]⟩ = false
    ∧ (removeBroken ["Hatnote"] (fun _ => some false)
        (parseWikicode ("\x7b\x7bHatnote|no links here\x7d\x7d"))).1.count
          (Node.template ⟨"Hatnote", ["no links here"]⟩)
      = (parseWikicode ("\x7b\x7bHatnote|no links here\x7d\x7d")).count
          (Node.template ⟨"Hatnote", ["no links here"]⟩) :=
  c6_no_wikilinks_never_removed ["Hatnote"] (fun _ => some false)
    (parseWikicode ("\x7b\x7bHatnote|no links here\x7d\x7d"))
    ⟨"Hatnote", ["no links here"]⟩ (by decide)

/-- C8: the filter is idempotent in effect at the wikitext level:
applying it to the wikitext it has already produced, with the same
hatnote-name set and existence mapping, removes nothing and reports
`modified = false`, and consequently the second pass's submission step
issues no edit (the no-op edit is skipped because nothing was
modified). -/
theorem c8_text_idempotent
    (hatnotes : List String) (cache : String → Option Bool) (text : String)
    (dryRun editOk : Bool) (title : String) :
    processText hatnotes cache (processText hatnotes cache text).1
      = ((processText hatnotes cache text).1, false)
    ∧ submitPhase dryRun editOk title
        (processText hatnotes cache (processText hatnotes cache text).1) = [] := by
  have hs2 : parseWikicode (processText hatnotes cache text).1
      = parseAux none
          (renderChars ((parseAux none text.data).filter
            (fun m => !nodeRemoved hatnotes cache m))) := rfl
  have hall : ∀ nd ∈ parseWikicode (processText hatnotes cache text).1,
      nodeRemoved hatnotes cache nd = false := by
    rw [hs2]
    exact reparse_all_kept hatnotes cache text.data.length text.data le_rfl
  have hfil : (parseWikicode (processText hatnotes cache text).1).filter
      (fun nd => !nodeRemoved hatnotes cache nd)
      = parseWikicode (processText hatnotes cache text).1 :=
    List.filter_eq_self.mpr (by intro a ha; simp [hall a ha])
  have hany : (parseWikicode (processText hatnotes cache text).1).any
      (fun nd => nodeRemoved hatnotes cache nd) = false :=
    List.any_eq_false.mpr (by intro a ha; simp [hall a ha])
  have hmain : processText hatnotes cache (processText hatnotes cache text).1
      = ((processText hatnotes cache text).1, false) := by
    rw [processText, removeBroken]
    simp only [hfil, hany]
    rw [render_parse]
  refine ⟨hmain, ?_⟩
  rw [submitPhase, hmain]
  simp

/-! ## Lemmas: batching, collection and the resolver -/

theorem chunkAux_length : ∀ (cs : List String) (acc : List String) (k : Nat),
    (chunkAux acc k cs).length = 1 + (cs.length - k + 49) / 50 := by
  intro cs
  induction cs with
  | nil => intro acc k; simp [chunkAux]
  | cons c cs ih =>
    intro acc k
    cases k with
    | zero =>
      have h := ih [c] 49
      simp only [chunkAux, List.length_cons, h]
      omega
    | succ k =>
      have h := ih (c :: acc) k
      simp only [chunkAux, List.length_cons, h]
      omega

theorem chunk50_length (titles : List String) :
    (chunk50 titles).length = (titles.length + 49) / 50 := by
  cases titles with
  | nil => simp [chunk50]
  | cons c cs =>
    have h := chunkAux_length cs [c] 49
    simp only [chunk50, List.length_cons, h]
    omega


theorem chunkAux_sizes : ∀ (cs : List String) (acc : List String) (k : Nat),
    ∀ b ∈ chunkAux acc k cs, b.length ≤ max (acc.length + k) 50 := by
  intro cs
  induction cs with
  | nil =>
    intro acc k b hb
    simp [chunkAux] at hb
    subst hb
    simp

  | cons c cs ih =>
    intro acc k b hb
    cases k with
    | zero =>
      simp only [chunkAux, List.mem_cons] at hb
      rcases hb with hb | hb
      · subst hb; simp
      · have h := ih [c] 49 b hb
        simp at h ⊢
        omega
    | succ k =>
      have h := ih (c :: acc) k b hb
      simp at h ⊢
      omega

theorem chunk50_sizes (titles : List String) : ∀ b ∈ chunk50 titles, b.length ≤ 50 := by
  cases titles with
  | nil => intro b hb; simp [chunk50] at hb
  | cons c cs =>
    intro b hb
    have h := chunkAux_sizes cs [c] 49 b hb
    simpa using h

theorem addToSet_mem (s : List String) (x y : String) (h : y ∈ addToSet s x) :
    y ∈ s ∨ y = x := by
  rw [addToSet] at h
  by_cases hx : x ∈ s
  · rw [if_pos hx] at h; exact Or.inl h
  · rw [if_neg hx] at h
    rcases List.mem_append.mp h with h | h
    · exact Or.inl h
    · exact Or.inr (List.mem_singleton.mp h)

theorem inner_fold_not_mem (cache : String → Option Bool) (x : String)
    (hx : (cache x).isSome = true) :
    ∀ (l : List String) (acc : List String), x ∉ acc →
      x ∉ l.foldl (fun acc2 tgt => if (cache tgt).isSome then acc2 else addToSet acc2 tgt) acc := by
  intro l
  induction l with
  | nil => intro acc hacc; exact hacc
  | cons tgt l ih =>
    intro acc hacc
    rw [List.foldl_cons]
    apply ih
    by_cases hsome : (cache tgt).isSome = true
    · rw [if_pos hsome]; exact hacc
    · rw [if_neg hsome]
      intro hmem
      rcases addToSet_mem acc tgt x hmem with h | h
      · exact hacc h
      · subst h; exact hsome hx

theorem outer_fold_not_mem (cache : String → Option Bool) (hatnotes : List String)
    (x : String) (hx : (cache x).isSome = true) :
    ∀ (ts : List Template) (acc : List String), x ∉ acc →
      x ∉ ts.foldl
        (fun acc t =>
          if pyStrip t.name ∈ hatnotes then
            (templateTargets t).foldl
              (fun acc2 tgt => if (cache tgt).isSome then acc2 else addToSet acc2 tgt) acc
          else acc) acc := by
  intro ts
  induction ts with
  | nil => intro acc hacc; exact hacc
  | cons t ts ih =>
    intro acc hacc
    rw [List.foldl_cons]
    apply ih
    by_cases hname : pyStrip t.name ∈ hatnotes
    · rw [if_pos hname]
      exact inner_fold_not_mem cache x hx (templateTargets t) acc hacc
    · rw [if_neg hname]; exact hacc

theorem cached_not_collected (cache : String → Option Bool) (hatnotes : List String)
    (w : List Node) (x : String) (hx : (cache x).isSome = true) :
    x ∉ collectTargets cache hatnotes w := by
  rw [collectTargets]
  exact outer_fold_not_mem cache hatnotes x hx (allTemplates w) [] (by simp)

theorem fold_pages_none (tgt : String) : ∀ (pages : List ApiPage) (ex : String → Option Bool),
    (∀ p ∈ pages, p.title ≠ tgt) → ex tgt = none →
    (pages.foldl (fun ex2 p => fun u => if u = p.title then some (!p.missing) else ex2 u) ex) tgt
      = none := by
  intro pages
  induction pages with
  | nil => intro ex _ hex; exact hex
  | cons p ps ih =>
    intro ex hall hex
    rw [List.foldl_cons]
    apply ih
    · intro q hq
      exact hall q (List.mem_cons_of_mem p hq)
    · have hne : tgt ≠ p.title := fun hh => hall p (List.mem_cons_self p ps) hh.symm
      simp [hne, hex]

theorem fold_batches_none (api : List String → List ApiPage) (tgt : String)
    (h : ∀ (b : List String), ∀ p ∈ api b, p.title ≠ tgt) :
    ∀ (batches : List (List String)) (ex : String → Option Bool), ex tgt = none →
      (batches.foldl
        (fun ex b =>
          (api b).foldl (fun ex2 p => fun u => if u = p.title then some (!p.missing) else ex2 u) ex)
        ex) tgt = none := by
  intro batches
  induction batches with
  | nil => intro ex hex; exact hex
  | cons b bs ih =>
    intro ex hex
    rw [List.foldl_cons]
    exact ih _ (fold_pages_none tgt (api b) ex (h b) hex)

theorem gpe_not_covered (api : List String → List ApiPage) (titles : List String)
    (tgt : String) (h : ∀ (b : List String), ∀ p ∈ api b, p.title ≠ tgt) :
    (get_pages_existence api titles).1 tgt = none := by
  rw [get_pages_existence]
  exact fold_batches_none api tgt h (chunk50 titles) (fun _ => none) rfl

/-- C3: for a list of n candidate titles the batched resolver issues
exactly `ceil(n/50)` underlying existence queries (one per batch, each
batch holding at most 50 titles), and a title already present in the
run-scoped existence cache is never collected for checking again, so it
causes zero additional API queries on later pages of the run. -/
theorem c3_batch_count_and_cache
    (api : List String → List ApiPage) (titles : List String) :
    (get_pages_existence api titles).2 = (titles.length + 49) / 50
    ∧ (∀ b ∈ chunk50 titles, b.length ≤ 50)
    ∧ ∀ (cache : String → Option Bool) (hatnotes : List String) (w : List Node) (x : String),
        (cache x).isSome = true → x ∉ collectTargets cache hatnotes w :=
  ⟨chunk50_length titles, chunk50_sizes titles,
   fun cache hatnotes w x hx => cached_not_collected cache hatnotes w x hx⟩

theorem c3_witness :
    (get_pages_existence (fun _ => []) ["A", "B", "C"]).2 = 1
    ∧ "A" ∉ collectTargets (fun _ => some true) ["Hatnote"]
        (parseWikicode ("\x7b\x7bHatnote|[[A]]\x7d\x7d")) := by
  have h := c3_batch_count_and_cache (fun _ => []) ["A", "B", "C"]
  exact ⟨h.1.trans (by decide),
    h.2.2 (fun _ => some true) ["Hatnote"]
      (parseWikicode ("\x7b\x7bHatnote|[[A]]\x7d\x7d")) ("A") (by decide)⟩

/-- C4: a queried title that the existence API response does not cover
ends up absent from the resolver's mapping; the removal decision's lookup
of a target absent from the existence mapping yields false, which triggers
removal of the containing matched hatnote template (and
`modified = true`). -/
theorem c4_uncovered_title_treated_missing
    (hatnotes : List String) (cache : String → Option Bool) (w : List Node)
    (t : Template) (tgt : String)
    (hmem : Node.template t ∈ w) (hname : pyStrip t.name ∈ hatnotes)
    (htgt : tgt ∈ templateTargets t) (habs : cache tgt = none) :
    cacheLookup cache tgt = false
    ∧ Node.template t ∉ (removeBroken hatnotes cache w).1
    ∧ (removeBroken hatnotes cache w).2 = true
    ∧ ∀ (api : List String → List ApiPage) (titles : List String),
        (∀ (b : List String), ∀ p ∈ api b, p.title ≠ tgt) →
        (get_pages_existence api titles).1 tgt = none := by
  have hlk : cacheLookup cache tgt = false := by rw [cacheLookup, habs]; rfl
  obtain ⟨h1, h2⟩ := removeBroken_removes hatnotes cache w t hmem
    (nodeRemoved_of_missing hatnotes cache t tgt hname htgt hlk)
  exact ⟨hlk, h1, h2, fun api titles h => gpe_not_covered api titles tgt h⟩

theorem c4_witness :
    cacheLookup (fun _ => none) ("Missing Page") = false
    ∧ Node.template ⟨"Hatnote", ["[[Missing Page]]"]⟩ ∉
        (removeBroken ["Hatnote"] (fun _ => none)
          (parseWikicode ("\x7b\x7bHatnote|[[Missing Page]]\x7d\x7d"))).1
    ∧ (removeBroken ["Hatnote"] (fun _ => none)
        (parseWikicode ("\x7b\x7bHatnote|[[Missing Page]]\x7d\x7d"))).2 = true := by
  have h := c4_uncovered_title_treated_missing
    ["Hatnote"] (fun _ => none)
    (parseWikicode ("\x7b\x7bHatnote|[[Missing Page]]\x7d\x7d"))
    ⟨"Hatnote", ["[[Missing Page]]"]⟩ ("Missing Page")
    (by decide) (by decide) (by decide) rfl
  exact ⟨h.1, h.2.1, h.2.2.1⟩

/-- C7: when the dry-run flag is true and the page's wikitext was
modified, the submission step produces exactly the dry-run notice and no
network call is issued. -/
theorem c7_dry_run_only_notice
    (hatnotes : List String) (cache : String → Option Bool) (text : String)
    (editOk : Bool) (title : String)
    (hmod : (processText hatnotes cache text).2 = true) :
    submitPhase true editOk title (processText hatnotes cache text)
      = [Effect.printLine ("[DRY RUN] Would edit: " ++ title)]
    ∧ ∀ e ∈ submitPhase true editOk title (processText hatnotes cache text),
        isNetworkCall e = false := by
  have h : submitPhase true editOk title (processText hatnotes cache text)
      = [Effect.printLine ("[DRY RUN] Would edit: " ++ title)] := by
    rw [submitPhase, if_pos hmod]
    rfl
  refine ⟨h, ?_⟩
  rw [h]
  intro e he
  rw [List.mem_singleton.mp he]
  rfl

theorem c7_witness :
    submitPhase true true ("Some Article")
      (processText ["Hatnote"] (fun _ => none) ("\x7b\x7bHatnote|[[Gone]]\x7d\x7d"))
      = [Effect.printLine ("[DRY RUN] Would edit: " ++ "Some Article")] :=
  (c7_dry_run_only_notice ["Hatnote"] (fun _ => none) ("\x7b\x7bHatnote|[[Gone]]\x7d\x7d")
    true ("Some Article") (by decide)).1

/-- C9: when a required credential variable (`BOT_USER` or `BOT_PASSWORD`)
is absent, empty or whitespace-only, the process exits with code 1 and its
observable effects contain no network call (only the fatal notices printed
before any request). -/
theorem c9_missing_credentials_abort
    (env : String → Option String) (mainRun : String → String → List Effect)
    (h : (env ("BOT_USER") = none ∨ ∃ v, env ("BOT_USER") = some v ∧ pyStrip v = "")
       ∨ (env ("BOT_PASSWORD") = none ∨ ∃ v, env ("BOT_PASSWORD") = some v ∧ pyStrip v = "")) :
    (runBot env mainRun).2 = 1
    ∧ ∀ e ∈ (runBot env mainRun).1, isNetworkCall e = false := by
  have hfatal : ∀ name, (env name = none ∨ ∃ v, env name = some v ∧ pyStrip v = "") →
      get_required_env env name
        = ([Effect.printLine ("[FATAL] Missing required environment variable: " ++ name)],
           none) := by
    intro name hn
    rcases hn with hn | ⟨v, hv, hs⟩
    · rw [get_required_env, hn]
    · rw [get_required_env, hv]
      dsimp only
      rw [if_pos (Or.inr hs)]
  have heff : ∀ name e, e ∈ (get_required_env env name).1 → isNetworkCall e = false := by
    intro name e he
    cases hn : env name with
    | none =>
      rw [get_required_env, hn] at he
      rw [List.mem_singleton.mp he]
      rfl
    | some v =>
      rw [get_required_env, hn] at he
      dsimp only at he
      by_cases hc : v = "" ∨ pyStrip v = ""
      · rw [if_pos hc] at he
        rw [List.mem_singleton.mp he]
        rfl
      · rw [if_neg hc] at he
        simp at he
  rcases h with hu | hp
  · have hmi : moduleInit env
        = ([Effect.printLine ("[FATAL] Missing required environment variable: " ++ "BOT_USER")],
           none) := by
      rw [moduleInit, hfatal ("BOT_USER") hu]
    rw [runBot, hmi]
    exact ⟨rfl, by intro e he; rw [List.mem_singleton.mp he]; rfl⟩
  · rcases hcu : get_required_env env ("BOT_USER") with ⟨es1, ou⟩
    cases ou with
    | none =>
      have hmi : moduleInit env = (es1, none) := by rw [moduleInit, hcu]
      rw [runBot, hmi]
      refine ⟨rfl, ?_⟩
      intro e he
      exact heff ("BOT_USER") e (by rw [hcu]; exact he)
    | some user =>
      have hmi : moduleInit env
          = (es1 ++ [Effect.printLine
              ("[FATAL] Missing required environment variable: " ++ "BOT_PASSWORD")],
             none) := by
        rw [moduleInit, hcu]
        dsimp only
        rw [hfatal ("BOT_PASSWORD") hp]
      rw [runBot, hmi]
      refine ⟨rfl, ?_⟩
      intro e he
      rcases List.mem_append.mp he with he | he
      · exact heff ("BOT_USER") e (by rw [hcu]; exact he)
      · rw [List.mem_singleton.mp he]
        rfl

theorem c9_witness :
    (runBot (fun n => if n = "BOT_USER" then some ("   ") else some ("pw"))
        (fun _ _ => [Effect.apiGet ("query")])).2 = 1
    ∧ Effect.apiGet ("query") ∉
        (runBot (fun n => if n = "BOT_USER" then some ("   ") else some ("pw"))
          (fun _ _ => [Effect.apiGet ("query")])).1 := by
  have h := c9_missing_credentials_abort
    (fun n => if n = "BOT_USER" then some ("   ") else some ("pw"))
    (fun _ _ => [Effect.apiGet ("query")])
    (Or.inl (Or.inr ⟨"   ", by decide, by decide⟩))
  refine ⟨h.1, ?_⟩
  intro hmem
  have := h.2 (Effect.apiGet ("query")) hmem
  simp [isNetworkCall] at this

/-- C10: the existence cache is keyed by the title string the API
returned, while the removal decision looks up the raw target extracted
from the wikitext; when every response entry carries a (normalized) title
different from the raw target and the target is not already cached, the
lookup misses, the target is treated as non-existent, and the containing
matched hatnote template is removed — regardless of whether the response
reported the normalized page as existing. -/
theorem c10_normalized_title_cache_miss
    (hatnotes : List String) (api : List String → List ApiPage)
    (cache : String → Option Bool) (w : List Node) (t : Template) (tgt : String)
    (hmem : Node.template t ∈ w) (hname : pyStrip t.name ∈ hatnotes)
    (htgt : tgt ∈ templateTargets t) (hc0 : cache tgt = none)
    (hnorm : ∀ (b : List String), ∀ p ∈ api b, p.title ≠ tgt) :
    (processPageW hatnotes api cache w).2 tgt = none
    ∧ cacheLookup ((processPageW hatnotes api cache w).2) tgt = false
    ∧ Node.template t ∉ (processPageW hatnotes api cache w).1.1
    ∧ (processPageW hatnotes api cache w).1.2 = true := by
  have hres : (get_pages_existence api (collectTargets cache hatnotes w)).1 tgt = none :=
    gpe_not_covered api _ tgt hnorm
  have hc2 : (processPageW hatnotes api cache w).2 tgt = none := by
    show updateCache cache (get_pages_existence api (collectTargets cache hatnotes w)).1 tgt
      = none
    rw [updateCache]
    rw [hres]
    exact hc0
  have hlk : cacheLookup ((processPageW hatnotes api cache w).2) tgt = false := by
    rw [cacheLookup, hc2]; rfl
  obtain ⟨h1, h2⟩ := removeBroken_removes hatnotes
    (updateCache cache (get_pages_existence api (collectTargets cache hatnotes w)).1) w t hmem
    (nodeRemoved_of_missing _ _ t tgt hname htgt hlk)
  exact ⟨hc2, hlk, h1, h2⟩

theorem c10_witness :
    (processPageW ["Hatnote"]
        (fun _ => [⟨"Foo bar", false⟩]) (fun _ => none)
        (parseWikicode ("\x7b\x7bHatnote|[[foo bar]]\x7d\x7d"))).1.2 = true
    ∧ Node.template ⟨"Hatnote", ["[[foo bar]]"]⟩ ∉
        (processPageW ["Hatnote"]
          (fun _ => [⟨"Foo bar", false⟩]) (fun _ => none)
          (parseWikicode ("\x7b\x7bHatnote|[[foo bar]]\x7d\x7d"))).1.1 := by
  have h := c10_normalized_title_cache_miss
    ["Hatnote"] (fun _ => [⟨"Foo bar", false⟩]) (fun _ => none)
    (parseWikicode ("\x7b\x7bHatnote|[[foo bar]]\x7d\x7d"))
    ⟨"Hatnote", ["[[foo bar]]"]⟩ ("foo bar")
    (by decide) (by decide) (by decide) rfl
    (by intro b p hp; rw [List.mem_singleton.mp hp]; decide)
  exact ⟨h.2.2.2, h.2.2.1⟩

end Hatnote
